import Mathlib

/-!
Verification of the panel-sequencing, placement, transition and geometry
engine of the VR slideshow (revision 2.1, the canonical revision of the
source: the IIFE registering the curved-panel component and driving
buildPanels / replaceOnePanel / chooseSeparatedYaw / shuffleArray).

The JavaScript is embedded shallowly: `Math.random()` draws are threaded
as explicit oracle arguments, the DOM panel entities become a list of the
asset ids their curved-panel attribute carries, the JS `Set` of displayed
ids becomes a `Finset ℕ`, and the asynchronous fade callbacks become
either explicit per-write formulas (opacity) or an atomic swap step (the
bookkeeping block that runs synchronously when a fade-out completes).
-/

namespace VRSlideshow

/-- An entry of the source's metaList: one ingested image,
{ id, dataUrl, width, height }.  The id is the numeric suffix of the
DOM id string img<n>; dataUrl is irrelevant to the sequencing engine
and is omitted. -/
structure Meta where
  id : ℕ
  width : ℕ
  height : ℕ
deriving DecidableEq, Repr, Inhabited

/-- The source's VISIBLE_PANELS constant. -/
def VISIBLE_PANELS : ℕ := 8

/-- One in-place swap arr[i] <-> arr[j] via destructuring assignment,
as in the body of shuffleArray. Out-of-range indices leave the list
unchanged (the source never produces them). -/
def listSwap (l : List α) (i j : ℕ) : List α :=
  match l.get? i, l.get? j with
  | some a, some b => (l.set i b).set j a
  | _, _ => l

/-- The loop of shuffleArray, from index i down to 1: at index i the
random draw floor(random*(i+1)) is modelled as rand i % (i+1). -/
def shuffleAux (rand : ℕ → ℕ) : ℕ → List α → List α
  | 0, arr => arr
  | i+1, arr => shuffleAux rand i (listSwap arr (i+1) (rand (i+1) % (i+2)))

/-- shuffleArray(arr): Fisher–Yates shuffle with the random draws
supplied by the oracle rand. -/
def shuffleArray (rand : ℕ → ℕ) (arr : List α) : List α :=
  match arr.length with
  | 0 => arr
  | n+1 => shuffleAux rand n arr

theorem cons_set_head_perm (t : List α) (k : ℕ) (a c : α) (h : t.get? k = some c) :
    (c :: t.set k a).Perm (a :: t) := by
  induction t generalizing k with
  | nil => simp at h
  | cons b s ih =>
    cases k with
    | zero =>
      simp only [List.get?_cons_zero, Option.some.injEq] at h
      subst h
      simpa using List.Perm.swap a b s
    | succ k =>
      simp only [List.get?_cons_succ] at h
      exact (List.Perm.swap b c _).trans (((ih k h).cons b).trans (List.Perm.swap a b s))

theorem set_swap_perm : ∀ (l : List α) (i j : ℕ) (a b : α),
    l.get? i = some a → l.get? j = some b → ((l.set i b).set j a).Perm l := by
  intro l
  induction l with
  | nil => intro i j a b h _; simp at h
  | cons c t ih =>
    intro i j a b hi hj
    cases i with
    | zero =>
      simp only [List.get?_cons_zero, Option.some.injEq] at hi
      subst hi
      cases j with
      | zero =>
        simp only [List.get?_cons_zero, Option.some.injEq] at hj
        subst hj
        simp
      | succ k =>
        simp only [List.get?_cons_succ] at hj
        simpa using cons_set_head_perm t k c b hj
    | succ m =>
      cases j with
      | zero =>
        simp only [List.get?_cons_zero, Option.some.injEq] at hj
        subst hj
        simp only [List.get?_cons_succ] at hi
        simpa using cons_set_head_perm t m c a hi
      | succ k =>
        simp only [List.get?_cons_succ] at hi hj
        simpa using (ih m k a b hi hj).cons c

theorem listSwap_perm (l : List α) (i j : ℕ) : (listSwap l i j).Perm l := by
  unfold listSwap
  cases hi : l.get? i with
  | none => exact List.Perm.refl l
  | some a =>
    cases hj : l.get? j with
    | none => exact List.Perm.refl l
    | some b =>
      exact set_swap_perm l i j a b hi hj

theorem shuffleAux_perm (rand : ℕ → ℕ) (n : ℕ) (l : List α) :
    (shuffleAux rand n l).Perm l := by
  induction n generalizing l with
  | zero => exact List.Perm.refl l
  | succ i ih =>
    exact (ih _).trans (listSwap_perm _ _ _)

theorem shuffleArray_perm (rand : ℕ → ℕ) (l : List α) :
    (shuffleArray rand l).Perm l := by
  unfold shuffleArray
  cases h : l.length with
  | zero => exact List.Perm.refl l
  | succ n => exact shuffleAux_perm rand n l

theorem shuffleArray_length (rand : ℕ → ℕ) (l : List α) :
    (shuffleArray rand l).length = l.length :=
  (shuffleArray_perm rand l).length_eq

/-- C9 — shuffleArray is a permutation: for every random oracle and every
input list, the shuffled list is a permutation of the input (hence has
the same length and the same multiset of elements), so pool refills and
the low-probability re-shuffle on release never add, duplicate, or lose
assets. -/
theorem shuffleArray_is_permutation (rand : ℕ → ℕ) (l : List (Meta)) :
    (shuffleArray rand l).Perm l ∧
    (shuffleArray rand l).length = l.length ∧
    (shuffleArray rand l : Multiset Meta) = (l : Multiset Meta) := by
  refine ⟨shuffleArray_perm rand l, shuffleArray_length rand l, ?_⟩
  exact Multiset.coe_eq_coe.mpr (shuffleArray_perm rand l)

/-- The sequencing state of revision 2.1: the asset id shown on each
visible panel (the src of its curved-panel attribute), the displayedSet
of ids, and the unusedSequencing pool of metas.  The catalog metaList is
passed separately, as the source keeps it in an enclosing variable. -/
structure PoolState where
  panels : List ℕ
  displayedSet : Finset ℕ
  unusedSequencing : List Meta
deriving DecidableEq

/-- The Math.random() draws one call of replaceOnePanel consumes:
the panel index pick, the shuffle inside pickNextMeta's second branch,
the random fallback index of its third branch, and the 25%-probability
re-shuffle of the pool after the released asset is pushed back. -/
structure StepOracle where
  panelChoice : ℕ
  ndShuffle : ℕ → ℕ
  fallbackChoice : ℕ
  doReshuffle : Bool
  poolShuffle : ℕ → ℕ

/-- pickNextMeta of replaceOnePanel: pop the unusedSequencing pool if it
has items; else pick the first element of a shuffled copy of the metas
not currently displayed; else fall back to a random catalog entry.
Returns the chosen meta (none only on an empty catalog, which the
caller's guard excludes) and the remaining pool. -/
def pickNextMeta (metaList : List Meta) (displayed : Finset ℕ) (pool : List Meta)
    (o : StepOracle) : Option Meta × List Meta :=
  match pool with
  | m :: rest => (some m, rest)
  | [] =>
    let notDisplayed := metaList.filter fun m => !(decide (m.id ∈ displayed))
    match shuffleArray o.ndShuffle notDisplayed with
    | m :: _ => (some m, [])
    | [] => (metaList.get? (o.fallbackChoice % metaList.length), [])

/-- The release half of the replaceOnePanel bookkeeping: look the
released id up in the catalog; if its meta exists and differs from the
newly applied one, push it onto the pool and, with low probability
(when the pool then has more than one element), re-shuffle the pool. -/
def releaseOld (metaList pool1 : List Meta) (oldId nextId : ℕ) (o : StepOracle) :
    List Meta :=
  match metaList.find? fun m => m.id == oldId with
  | some oldMeta =>
    if oldMeta.id ≠ nextId then
      let pushed := pool1 ++ [oldMeta]
      if 1 < pushed.length ∧ o.doReshuffle = true then shuffleArray o.poolShuffle pushed
      else pushed
    else pool1
  | none => pool1

/-- The bookkeeping of one replaceOnePanel call, together with the id of
the asset the call selected (none when the guard made the call a no-op).
The source performs this block synchronously when the fade-out reaches
zero: read the panel's current asset id from its curved-panel attribute,
pick the next meta, update displayedSet (delete old, add new), push the
released meta back via releaseOld, and write the new src to the panel. -/
def replaceStepAux (metaList : List Meta) (s : PoolState) (o : StepOracle) :
    PoolState × Option ℕ :=
  if s.panels.isEmpty || metaList.isEmpty then (s, none)
  else
    let idx := o.panelChoice % s.panels.length
    match s.panels.get? idx with
    | none => (s, none)
    | some oldId =>
      match pickNextMeta metaList s.displayedSet s.unusedSequencing o with
      | (none, _) => (s, none)
      | (some next, pool1) =>
        (⟨s.panels.set idx next.id,
          insert next.id (s.displayedSet.erase oldId),
          releaseOld metaList pool1 oldId next.id o⟩, some next.id)

/-- replaceOnePanel as a state transformer (the selected id dropped). -/
def replaceStep (metaList : List Meta) (s : PoolState) (o : StepOracle) : PoolState :=
  (replaceStepAux metaList s o).1

/-- Run a sequence of replacement ticks, collecting the ids the engine
selected (the nextUnique draws). -/
def runSteps (metaList : List Meta) : PoolState → List StepOracle → PoolState × List ℕ
  | s, [] => (s, [])
  | s, o :: os =>
    let r := replaceStepAux metaList s o
    let rest := runSteps metaList r.1 os
    (rest.1, r.2.toList ++ rest.2)

/-- The Math.random() draws buildPanels consumes: the shuffle of the
catalog copy and the shuffle of the freshly built unused pool. -/
structure BuildOracle where
  catalogShuffle : ℕ → ℕ
  poolShuffle : ℕ → ℕ

/-- The while-loop of buildPanels: while fewer than VISIBLE_PANELS
panels exist, append shuffled[panelEntities.length % shuffled.length].
Fuel bounds the iterations; VISIBLE_PANELS is enough. -/
def fillLoop (shuffled : List Meta) : ℕ → List Meta → List Meta
  | 0, acc => acc
  | fuel+1, acc =>
    if acc.length < VISIBLE_PANELS then
      match shuffled.get? (acc.length % shuffled.length) with
      | some m => fillLoop shuffled fuel (acc ++ [m])
      | none => acc
    else acc

/-- buildPanels: clear state, shuffle a copy of the catalog, display its
first min(VISIBLE_PANELS, length) entries, duplicate cyclically until
VISIBLE_PANELS panels exist, mark every shown id displayed, and set the
unused pool to a shuffled copy of the non-displayed catalog entries. -/
def buildPanels (o : BuildOracle) (metaList : List Meta) : PoolState :=
  if metaList.isEmpty then ⟨[], ∅, []⟩
  else
    let shuffled := shuffleArray o.catalogShuffle metaList
    let panelsMeta := fillLoop shuffled VISIBLE_PANELS (shuffled.take VISIBLE_PANELS)
    let displayed := panelsMeta.foldl (fun s m => insert m.id s) (∅ : Finset ℕ)
    let pool := metaList.filter fun m => !(decide (m.id ∈ displayed))
    ⟨panelsMeta.map Meta.id, displayed, shuffleArray o.poolShuffle pool⟩

/-- removeImage(index): drop the catalog entry at the index, filter it
out of the unused pool, and delete its id from displayedSet (the panel
entities themselves are not touched).  Returns the new catalog, pool and
displayed set; an invalid index is a no-op. -/
def removeImage (metaList pool : List Meta) (displayed : Finset ℕ) (index : ℕ) :
    List Meta × List Meta × Finset ℕ :=
  match metaList.get? index with
  | none => (metaList, pool, displayed)
  | some meta =>
    (metaList.eraseIdx index,
     pool.filter fun m => !(m.id == meta.id),
     displayed.erase meta.id)

/-- The set of asset ids of a list of metas. -/
def idsOf (l : List Meta) : Finset ℕ := (l.map Meta.id).toFinset

/-- The conservation invariant of the sequencing bookkeeping: the unused
pool and the displayed set together cover exactly the catalog's ids. -/
def poolInv (metaList : List Meta) (s : PoolState) : Prop :=
  idsOf s.unusedSequencing ∪ s.displayedSet = idsOf metaList

instance (metaList : List Meta) (s : PoolState) : Decidable (poolInv metaList s) := by
  unfold poolInv; infer_instance

theorem mem_idsOf {x : ℕ} {l : List Meta} : x ∈ idsOf l ↔ ∃ m ∈ l, m.id = x := by
  simp [idsOf]

theorem idsOf_nil : idsOf ([] : List Meta) = ∅ := rfl

theorem idsOf_cons (m : Meta) (l : List Meta) : idsOf (m :: l) = insert m.id (idsOf l) := by
  simp [idsOf]

theorem idsOf_append (l₁ l₂ : List Meta) : idsOf (l₁ ++ l₂) = idsOf l₁ ∪ idsOf l₂ := by
  ext x; simp [idsOf]

theorem idsOf_perm {l₁ l₂ : List Meta} (h : l₁.Perm l₂) : idsOf l₁ = idsOf l₂ :=
  List.toFinset_eq_of_perm _ _ (h.map Meta.id)

theorem idsOf_shuffleArray (rand : ℕ → ℕ) (l : List Meta) :
    idsOf (shuffleArray rand l) = idsOf l :=
  idsOf_perm (shuffleArray_perm rand l)

theorem find?_id_some {metaList : List Meta} {oldId : ℕ} {oldMeta : Meta}
    (h : metaList.find? (fun m => m.id == oldId) = some oldMeta) :
    oldMeta ∈ metaList ∧ oldMeta.id = oldId := by
  refine ⟨List.mem_of_find?_eq_some h, ?_⟩
  have := List.find?_some h
  simpa using this

theorem find?_id_none {metaList : List Meta} {oldId : ℕ}
    (h : metaList.find? (fun m => m.id == oldId) = none) : oldId ∉ idsOf metaList := by
  intro hmem
  rcases mem_idsOf.mp hmem with ⟨m, hm, hid⟩
  have := List.find?_eq_none.mp h m hm
  simp [hid] at this

theorem releaseOld_ids (metaList pool1 : List Meta) (oldId nextId : ℕ) (o : StepOracle) :
    idsOf (releaseOld metaList pool1 oldId nextId o) =
      if oldId ∈ idsOf metaList ∧ oldId ≠ nextId then insert oldId (idsOf pool1)
      else idsOf pool1 := by
  unfold releaseOld
  rcases hfind : metaList.find? (fun m => m.id == oldId) with _ | oldMeta <;>
    rw [hfind] <;> dsimp only
  · rw [if_neg (show ¬(oldId ∈ idsOf metaList ∧ oldId ≠ nextId) from
      fun hand => find?_id_none hfind hand.1)]
  · rcases find?_id_some hfind with ⟨hmem, hid⟩
    rw [hid]
    by_cases hne : oldId = nextId
    · rw [if_neg (fun hcon => hcon hne), if_neg (fun hand => hand.2 hne)]
    · have hgoal : idsOf (pool1 ++ [oldMeta]) = insert oldId (idsOf pool1) := by
        rw [idsOf_append]
        ext x
        simp only [Finset.mem_union, Finset.mem_insert, idsOf, List.map_cons, List.map_nil,
          List.toFinset_cons, List.toFinset_nil, insert_emptyc_eq, Finset.mem_singleton, hid]
        tauto
      rw [if_pos hne]
      rw [if_pos (⟨mem_idsOf.mpr ⟨oldMeta, hmem, hid⟩, hne⟩ :
        oldId ∈ idsOf metaList ∧ oldId ≠ nextId)]
      split
      · rw [idsOf_shuffleArray, hgoal]
      · exact hgoal

theorem releaseOld_subset {metaList pool1 : List Meta} {oldId nextId : ℕ} {o : StepOracle}
    {x : Meta} (h : x ∈ releaseOld metaList pool1 oldId nextId o) :
    x ∈ pool1 ∨ (x ∈ metaList ∧ x.id = oldId) := by
  unfold releaseOld at h
  rcases hfind : metaList.find? (fun m => m.id == oldId) with _ | oldMeta <;>
    rw [hfind] at h <;> dsimp only at h
  · exact Or.inl h
  · rcases find?_id_some hfind with ⟨hmem, hid⟩
    split at h
    · have hx : x ∈ pool1 ++ [oldMeta] := by
        split at h
        · exact (shuffleArray_perm _ _).mem_iff.mp h
        · exact h
      rcases List.mem_append.mp hx with hx | hx
      · exact Or.inl hx
      · rcases List.mem_singleton.mp hx with rfl
        exact Or.inr ⟨hmem, hid⟩
    · exact Or.inl h

theorem replaceStepAux_of_pick {metaList : List Meta} {s : PoolState} {o : StepOracle}
    {oldId : ℕ} {next : Meta} {pool1 : List Meta}
    (hguard : (s.panels.isEmpty || metaList.isEmpty) = false)
    (hget : s.panels.get? (o.panelChoice % s.panels.length) = some oldId)
    (hpick : pickNextMeta metaList s.displayedSet s.unusedSequencing o = (some next, pool1)) :
    replaceStepAux metaList s o =
      (⟨s.panels.set (o.panelChoice % s.panels.length) next.id,
        insert next.id (s.displayedSet.erase oldId),
        releaseOld metaList pool1 oldId next.id o⟩, some next.id) := by
  unfold replaceStepAux
  rw [hguard]
  simp only [Bool.false_eq_true, if_false, hget, hpick]

theorem replaceStepAux_guard {metaList : List Meta} {s : PoolState} {o : StepOracle}
    (hguard : (s.panels.isEmpty || metaList.isEmpty) = true) :
    replaceStepAux metaList s o = (s, none) := by
  unfold replaceStepAux
  rw [if_pos hguard]

theorem replaceStepAux_of_pickNone {metaList : List Meta} {s : PoolState} {o : StepOracle}
    {oldId : ℕ} {pool1 : List Meta}
    (hguard : (s.panels.isEmpty || metaList.isEmpty) = false)
    (hget : s.panels.get? (o.panelChoice % s.panels.length) = some oldId)
    (hpick : pickNextMeta metaList s.displayedSet s.unusedSequencing o = (none, pool1)) :
    replaceStepAux metaList s o = (s, none) := by
  unfold replaceStepAux
  rw [hguard]
  simp only [Bool.false_eq_true, if_false, hget, hpick]

theorem fillLoop_subset {sh : List Meta} {x : Meta} :
    ∀ {fuel : ℕ} {acc : List Meta}, x ∈ fillLoop sh fuel acc → x ∈ acc ∨ x ∈ sh := by
  intro fuel
  induction fuel with
  | zero => intro acc h; exact Or.inl h
  | succ fuel ih =>
    intro acc h
    unfold fillLoop at h
    split at h
    · rcases hg : sh.get? (acc.length % sh.length) with _ | m <;> rw [hg] at h
      · exact Or.inl h
      · rcases ih h with hm | hm
        · rcases List.mem_append.mp hm with hm | hm
          · exact Or.inl hm
          · rcases List.mem_singleton.mp hm with rfl
            exact Or.inr (List.get?_mem hg)
        · exact Or.inr hm
    · exact Or.inl h

theorem foldl_insert_eq (l : List Meta) (init : Finset ℕ) :
    l.foldl (fun s m => insert m.id s) init = init ∪ idsOf l := by
  induction l generalizing init with
  | nil => simp [idsOf]
  | cons m t ih =>
    rw [List.foldl_cons, ih, idsOf_cons]
    ext x
    simp only [Finset.mem_union, Finset.mem_insert]
    tauto

/-- The conservation invariant holds right after buildPanels, for every
catalog and every pair of random shuffles. -/
theorem poolInv_buildPanels (bo : BuildOracle) (metaList : List Meta) :
    poolInv metaList (buildPanels bo metaList) := by
  unfold buildPanels poolInv
  by_cases hemp : metaList.isEmpty
  · rw [if_pos hemp]
    rcases metaList with _ | ⟨m, t⟩
    · simp [idsOf]
    · simp [List.isEmpty] at hemp
  · rw [if_neg hemp]
    dsimp only
    rw [idsOf_shuffleArray, foldl_insert_eq, Finset.empty_union]
    ext x
    simp only [Finset.mem_union, mem_idsOf, List.mem_filter, Bool.not_eq_eq_eq_not,
      Bool.not_true, decide_eq_false_iff_not, Finset.empty_union]
    constructor
    · rintro (⟨m, ⟨hm, _⟩, rfl⟩ | hpan)
      · exact ⟨m, hm, rfl⟩
      · rcases hpan with ⟨m, hm, rfl⟩
        rcases fillLoop_subset hm with hm | hm
        · exact ⟨m, (shuffleArray_perm _ _).mem_iff.mp (List.mem_of_mem_take hm), rfl⟩
        · exact ⟨m, (shuffleArray_perm _ _).mem_iff.mp hm, rfl⟩
    · rintro ⟨m, hm, rfl⟩
      by_cases hd : ∃ m' ∈ fillLoop (shuffleArray bo.catalogShuffle metaList) VISIBLE_PANELS
          ((shuffleArray bo.catalogShuffle metaList).take VISIBLE_PANELS), m'.id = m.id
      · exact Or.inr hd
      · refine Or.inl ⟨m, ⟨hm, ?_⟩, rfl⟩
        intro hc
        exact hd hc

/-- The conservation invariant is preserved by every replaceOnePanel
bookkeeping step, for every catalog, state and random oracle. -/
theorem poolInv_replaceStep (metaList : List Meta) (s : PoolState) (o : StepOracle)
    (h : poolInv metaList s) : poolInv metaList (replaceStep metaList s o) := by
  unfold replaceStep
  by_cases hguard : (s.panels.isEmpty || metaList.isEmpty) = true
  · rw [replaceStepAux_guard hguard]; exact h
  · have hguard' : (s.panels.isEmpty || metaList.isEmpty) = false :=
      Bool.eq_false_iff.mpr hguard
    rcases hget : s.panels.get? (o.panelChoice % s.panels.length) with _ | oldId
    · unfold replaceStepAux
      rw [hguard']
      simp only [Bool.false_eq_true, if_false, hget]
      exact h
    · rcases hpick : pickNextMeta metaList s.displayedSet s.unusedSequencing o with
        ⟨next?, pool1⟩
      rcases next? with _ | next
      · rw [replaceStepAux_of_pickNone hguard' hget hpick]; exact h
      · rw [replaceStepAux_of_pick hguard' hget hpick]
        unfold poolInv
        dsimp only
        rw [releaseOld_ids]
        rcases hpool : s.unusedSequencing with _ | ⟨m, rest⟩
        · -- pool empty: the displayed set already covers the catalog
          have hdisp : s.displayedSet = idsOf metaList := by
            rw [poolInv, hpool] at h
            simpa [idsOf] using h
          rw [hpool] at hpick
          unfold pickNextMeta at hpick
          dsimp only at hpick
          rcases hsh : shuffleArray o.ndShuffle
              (metaList.filter fun m => !(decide (m.id ∈ s.displayedSet))) with _ | ⟨m, ms⟩ <;>
            rw [hsh] at hpick
          · dsimp only at hpick
            rcases hnext : metaList.get? (o.fallbackChoice % metaList.length) with _ | nx <;>
              rw [hnext] at hpick
            · exact absurd hpick (by simp)
            · injection hpick with h1 h2
              injection h1 with h1
              subst h1
              subst h2
              have hnmem : nx.id ∈ idsOf metaList :=
                mem_idsOf.mpr ⟨nx, List.get?_mem hnext, rfl⟩
              rw [hdisp]
              split
              · rename_i hcond
                rcases hcond with ⟨hold, hne⟩
                ext x
                simp only [idsOf_nil, Finset.mem_union, Finset.mem_insert, Finset.mem_erase,
                  Finset.not_mem_empty, or_false, false_or]
                constructor
                · rintro (rfl | rfl | ⟨-, hx⟩)
                  · exact hold
                  · exact hnmem
                  · exact hx
                · intro hx
                  by_cases hxo : x = oldId
                  · exact Or.inl hxo
                  · exact Or.inr (Or.inr ⟨hxo, hx⟩)
              · rename_i hcond
                push_neg at hcond
                ext x
                simp only [idsOf_nil, Finset.mem_union, Finset.mem_insert, Finset.mem_erase,
                  Finset.not_mem_empty, or_false, false_or]
                constructor
                · rintro (rfl | ⟨-, hx⟩)
                  · exact hnmem
                  · exact hx
                · intro hx
                  by_cases hxo : x = oldId
                  · subst hxo
                    exact Or.inl (hcond hx)
                  · exact Or.inr ⟨hxo, hx⟩
          · -- second branch is unreachable when the pool is empty
            exfalso
            have hmem : m ∈ metaList.filter fun m => !(decide (m.id ∈ s.displayedSet)) :=
              (shuffleArray_perm o.ndShuffle _).mem_iff.mp (hsh ▸ List.mem_cons_self m ms)
            rcases List.mem_filter.mp hmem with ⟨hm, hflt⟩
            simp only [Bool.not_eq_eq_eq_not, Bool.not_true, decide_eq_false_iff_not] at hflt
            exact hflt (by rw [hdisp]; exact mem_idsOf.mpr ⟨m, hm, rfl⟩)
        · -- pool nonempty: the popped head is the next meta
          rw [hpool] at hpick
          unfold pickNextMeta at hpick
          dsimp only at hpick
          obtain ⟨rfl, rfl⟩ : m = next ∧ rest = pool1 := by
            refine ⟨?_, ?_⟩
            · have := congrArg Prod.fst hpick
              simpa using this
            · have := congrArg Prod.snd hpick
              simpa using this
          have hpt : ∀ x, x = m.id ∨ x ∈ idsOf rest ∨ x ∈ s.displayedSet ↔
              x ∈ idsOf metaList := by
            intro x
            have := Finset.ext_iff.mp h x
            rw [hpool] at this
            simpa [poolInv, idsOf_cons, Finset.mem_union, Finset.mem_insert, or_assoc]
              using this
          have hnmem : m.id ∈ idsOf metaList := (hpt m.id).mp (Or.inl rfl)
          split
          · rename_i hcond
            rcases hcond with ⟨hold, hne⟩
            ext x
            simp only [Finset.mem_union, Finset.mem_insert, Finset.mem_erase]
            constructor
            · rintro ((rfl | hx) | (rfl | ⟨-, hx⟩))
              · exact hold
              · exact (hpt x).mp (Or.inr (Or.inl hx))
              · exact hnmem
              · exact (hpt x).mp (Or.inr (Or.inr hx))
            · intro hx
              rcases (hpt x).mpr hx with h1 | h1 | h1
              · exact Or.inr (Or.inl h1)
              · exact Or.inl (Or.inr h1)
              · by_cases hxo : x = oldId
                · exact Or.inl (Or.inl hxo)
                · exact Or.inr (Or.inr ⟨hxo, h1⟩)
          · rename_i hcond
            push_neg at hcond
            ext x
            simp only [Finset.mem_union, Finset.mem_insert, Finset.mem_erase]
            constructor
            · rintro (hx | (rfl | ⟨-, hx⟩))
              · exact (hpt x).mp (Or.inr (Or.inl hx))
              · exact hnmem
              · exact (hpt x).mp (Or.inr (Or.inr hx))
            · intro hx
              rcases (hpt x).mpr hx with h1 | h1 | h1
              · exact Or.inr (Or.inl h1)
              · exact Or.inl h1
              · by_cases hxo : x = oldId
                · subst hxo
                  exact Or.inr (Or.inl (hcond hx))
                · exact Or.inr (Or.inr ⟨hxo, h1⟩)

theorem idsOf_eraseIdx {l : List Meta} {i : ℕ} {meta : Meta}
    (hget : l.get? i = some meta) (hnd : (l.map Meta.id).Nodup) :
    idsOf (l.eraseIdx i) = (idsOf l).erase meta.id := by
  induction l generalizing i with
  | nil => simp at hget
  | cons a t ih =>
    rcases List.nodup_cons.mp hnd with ⟨hat, hndt⟩
    cases i with
    | zero =>
      simp only [List.get?_cons_zero, Option.some.injEq] at hget
      subst hget
      rw [List.eraseIdx_cons_zero, idsOf_cons, Finset.erase_insert]
      intro hmem
      rcases mem_idsOf.mp hmem with ⟨m, hm, hid⟩
      exact hat (hid ▸ List.mem_map_of_mem Meta.id hm)
    | succ i =>
      simp only [List.get?_cons_succ] at hget
      have hne : a.id ≠ meta.id := by
        intro heq
        exact hat (heq ▸ List.mem_map_of_mem Meta.id (List.get?_mem hget))
      rw [List.eraseIdx_cons_succ, idsOf_cons, idsOf_cons, ih hget hndt,
        Finset.erase_insert_of_ne hne]

/-- removeImage keeps the conservation invariant relative to the shrunk
catalog: after removing a catalog entry, the filtered pool and the
pruned displayed set together cover exactly the remaining ids. -/
theorem poolInv_removeImage (metaList : List Meta) (s : PoolState) (index : ℕ)
    (hnd : (metaList.map Meta.id).Nodup) (h : poolInv metaList s) :
    idsOf (removeImage metaList s.unusedSequencing s.displayedSet index).2.1 ∪
      (removeImage metaList s.unusedSequencing s.displayedSet index).2.2 =
      idsOf (removeImage metaList s.unusedSequencing s.displayedSet index).1 := by
  unfold removeImage
  rcases hget : metaList.get? index with _ | meta
  · exact h
  · dsimp only
    rw [idsOf_eraseIdx hget hnd]
    ext x
    have hpt := Finset.ext_iff.mp h x
    simp only [Finset.mem_union, Finset.mem_erase, mem_idsOf, List.mem_filter,
      Bool.not_eq_eq_eq_not, Bool.not_true, beq_eq_false_iff_ne, ne_eq] at *
    constructor
    · rintro (⟨m, ⟨hm, hmne⟩, rfl⟩ | ⟨hxne, hx⟩)
      · exact ⟨hmne, hpt.mp (Or.inl ⟨m, hm, rfl⟩)⟩
      · exact ⟨hxne, hpt.mp (Or.inr hx)⟩
    · rintro ⟨hxne, hx⟩
      rcases hpt.mpr hx with ⟨m, hm, rfl⟩ | hx
      · exact Or.inl ⟨m, ⟨hm, hxne⟩, rfl⟩
      · exact Or.inr ⟨hxne, hx⟩

/-- C3 — pool conservation: the union of the unused pool's ids and the
displayed id set equals the full catalog's id set right after
buildPanels, and this is preserved by every replaceOnePanel bookkeeping
step (in a step that changes the panel's asset, the released meta is
pushed back into the pool) and, relative to the shrunk catalog, by
removeImage.  No catalog asset is ever silently dropped. -/
theorem pool_conservation (metaList : List Meta) (bo : BuildOracle) (s : PoolState)
    (o : StepOracle) (index : ℕ) (hnd : (metaList.map Meta.id).Nodup)
    (h : poolInv metaList s) :
    poolInv metaList (buildPanels bo metaList) ∧
    poolInv metaList (replaceStep metaList s o) ∧
    idsOf (removeImage metaList s.unusedSequencing s.displayedSet index).2.1 ∪
      (removeImage metaList s.unusedSequencing s.displayedSet index).2.2 =
      idsOf (removeImage metaList s.unusedSequencing s.displayedSet index).1 :=
  ⟨poolInv_buildPanels bo metaList, poolInv_replaceStep metaList s o h,
    poolInv_removeImage metaList s index hnd h⟩

theorem pool_conservation_witness :
    (((([⟨0, 2, 2⟩, ⟨1, 3, 3⟩, ⟨2, 4, 4⟩] : List Meta).map Meta.id).Nodup ∧
      poolInv [⟨0, 2, 2⟩, ⟨1, 3, 3⟩, ⟨2, 4, 4⟩] ⟨[0, 1], {0, 1}, [⟨2, 4, 4⟩]⟩) ∧
      (poolInv [⟨0, 2, 2⟩, ⟨1, 3, 3⟩, ⟨2, 4, 4⟩]
        (buildPanels ⟨id, id⟩ [⟨0, 2, 2⟩, ⟨1, 3, 3⟩, ⟨2, 4, 4⟩]) ∧
      poolInv [⟨0, 2, 2⟩, ⟨1, 3, 3⟩, ⟨2, 4, 4⟩]
        (replaceStep [⟨0, 2, 2⟩, ⟨1, 3, 3⟩, ⟨2, 4, 4⟩] ⟨[0, 1], {0, 1}, [⟨2, 4, 4⟩]⟩
          ⟨0, id, 0, false, id⟩) ∧
      idsOf (removeImage [⟨0, 2, 2⟩, ⟨1, 3, 3⟩, ⟨2, 4, 4⟩] [⟨2, 4, 4⟩] {0, 1} 0).2.1 ∪
        (removeImage [⟨0, 2, 2⟩, ⟨1, 3, 3⟩, ⟨2, 4, 4⟩] [⟨2, 4, 4⟩] {0, 1} 0).2.2 =
        idsOf (removeImage [⟨0, 2, 2⟩, ⟨1, 3, 3⟩, ⟨2, 4, 4⟩] [⟨2, 4, 4⟩] {0, 1} 0).1)) :=
  ⟨⟨by decide, by decide⟩,
    pool_conservation [⟨0, 2, 2⟩, ⟨1, 3, 3⟩, ⟨2, 4, 4⟩] ⟨id, id⟩
      ⟨[0, 1], {0, 1}, [⟨2, 4, 4⟩]⟩ ⟨0, id, 0, false, id⟩ 0 (by decide) (by decide)⟩

/-- C10 — replacement tick on empty state is a safe no-op: when the
visible panel list or the catalog is empty, replaceOnePanel returns at
its first guard and the panel list, the unused pool and the displayed
set are all left unchanged (and no asset is selected). -/
theorem replaceStep_empty_noop (metaList : List Meta) (s : PoolState) (o : StepOracle)
    (h : s.panels = [] ∨ metaList = []) :
    replaceStep metaList s o = s ∧
    (replaceStep metaList s o).panels = s.panels ∧
    (replaceStep metaList s o).unusedSequencing = s.unusedSequencing ∧
    (replaceStep metaList s o).displayedSet = s.displayedSet ∧
    (replaceStepAux metaList s o).2 = none := by
  have hguard : (s.panels.isEmpty || metaList.isEmpty) = true := by
    rcases h with h | h <;> simp [h]
  have haux : replaceStepAux metaList s o = (s, none) :=
    @replaceStepAux_guard metaList s o hguard
  refine ⟨?_, ?_, ?_, ?_, ?_⟩ <;> simp only [replaceStep, haux]

theorem replaceStep_empty_noop_witness :
    ((([] : List ℕ) = [] ∨ ([⟨0, 1, 1⟩] : List Meta) = []) ∧
      replaceStep [⟨0, 1, 1⟩] ⟨[], ∅, []⟩ ⟨0, id, 0, false, id⟩ = ⟨[], ∅, []⟩) := by
  refine ⟨Or.inl rfl, ?_⟩
  exact (replaceStep_empty_noop [⟨0, 1, 1⟩] ⟨[], ∅, []⟩ ⟨0, id, 0, false, id⟩
    (Or.inl rfl)).1

/-- The phase of one in-flight fade animation loop of replaceOnePanel
(the fade-out rAF chain, or the fade-in chain started after the swap). -/
inductive FadePhase
  | fadingOut
  | fadingIn
deriving DecidableEq, Repr

/-- One in-flight fade animation: the performance.now() timestamp it
started at and the opacity captured as its starting point (the fade-out
reads mesh.material.opacity into from; the fade-in always rises from
zero).  Each call of replaceOnePanel creates a fresh one of these. -/
structure FadeProc where
  phase : FadePhase
  start : ℚ
  fromOpacity : ℚ
deriving DecidableEq, Repr

/-- One visible panel as the transition engine sees it: the current
material opacity and the list of fade loops currently scheduled against
the render loop for this panel. -/
structure PanelAnim where
  opacity : ℚ
  activeFades : List FadeProc
deriving DecidableEq, Repr

/-- The entry of replaceOnePanel on the animation state: after the
guard for an empty panel list or catalog, a random panel is chosen and
a new fade-out loop is started on it unconditionally — the source keeps
no transition state and never checks whether a fade is already running
on the chosen panel before scheduling a new one. -/
def replaceTickAnim (catalogLen : ℕ) (panels : List PanelAnim) (idxChoice : ℕ)
    (now : ℚ) : List PanelAnim :=
  if panels.isEmpty || catalogLen == 0 then panels
  else
    let idx := idxChoice % panels.length
    match panels.get? idx with
    | none => panels
    | some p =>
      panels.set idx
        { p with activeFades := p.activeFades ++ [⟨FadePhase.fadingOut, now, p.opacity⟩] }

/-- C2 — the re-entrancy guard does not exist in the code: a replacement
tick that selects a panel whose transition is in flight (here: panel 0,
with a fade-out already in flight) is not a no-op; it starts a second
concurrent fade-out on that panel, so afterwards two fade loops write
the panel's opacity.  This evaluates the tick entry at the failing
input. -/
theorem replaceTick_concurrent_fade :
    replaceTickAnim 2 [⟨1, [⟨FadePhase.fadingOut, 0, 1⟩]⟩] 0 1000 ≠
      [⟨1, [⟨FadePhase.fadingOut, 0, 1⟩]⟩] ∧
    (replaceTickAnim 2 [⟨1, [⟨FadePhase.fadingOut, 0, 1⟩]⟩] 0 1000).map
      (fun p => p.activeFades.length) = [2] := by
  decide

/-- One opacity write of the fade-out loop of replaceOnePanel:
t = (now - start)/600 and the write is max(0, from * (1 - t)). -/
def fadeOutWrite (fromOpacity startT now : ℚ) : ℚ :=
  max 0 (fromOpacity * (1 - (now - startT) / 600))

/-- One opacity write of the fade-in loop of replaceOnePanel:
ti = (nowIn - startIn)/600 and the write is min(1, ti). -/
def fadeInWrite (startIn nowIn : ℚ) : ℚ :=
  min 1 ((nowIn - startIn) / 600)

/-- C7 — opacity bounds: for every starting opacity in [0, 1] and every
sequence of frame timestamps at or after the respective start (rAF
timestamps are monotone, and each loop's first call uses its own start
time), every opacity value the fade-out loop writes and every value the
fade-in loop writes lies in [0, 1]. -/
theorem opacity_writes_bounded (fromOpacity startT startIn : ℚ) (times timesIn : List ℚ)
    (hfrom0 : 0 ≤ fromOpacity) (hfrom1 : fromOpacity ≤ 1)
    (htimes : ∀ t ∈ times, startT ≤ t) (htimesIn : ∀ t ∈ timesIn, startIn ≤ t) :
    (∀ t ∈ times, 0 ≤ fadeOutWrite fromOpacity startT t ∧
      fadeOutWrite fromOpacity startT t ≤ 1) ∧
    (∀ t ∈ timesIn, 0 ≤ fadeInWrite startIn t ∧ fadeInWrite startIn t ≤ 1) := by
  constructor
  · intro t ht
    have hts : startT ≤ t := htimes t ht
    constructor
    · exact le_max_left 0 _
    · apply max_le (by norm_num)
      have hu : (0 : ℚ) ≤ (t - startT) / 600 := div_nonneg (by linarith) (by norm_num)
      have h1 : fromOpacity * (1 - (t - startT) / 600) ≤ fromOpacity * 1 :=
        mul_le_mul_of_nonneg_left (by linarith) hfrom0
      linarith
  · intro t ht
    have hts : startIn ≤ t := htimesIn t ht
    constructor
    · exact le_min (by norm_num) (div_nonneg (by linarith) (by norm_num))
    · exact min_le_left 1 _

theorem opacity_writes_bounded_witness :
    ((0 ≤ (1 / 2 : ℚ) ∧ (1 / 2 : ℚ) ≤ 1 ∧
      (∀ t ∈ ([0, 300, 900] : List ℚ), (0 : ℚ) ≤ t) ∧
      (∀ t ∈ ([0, 600] : List ℚ), (0 : ℚ) ≤ t)) ∧
    ((∀ t ∈ ([0, 300, 900] : List ℚ), 0 ≤ fadeOutWrite (1 / 2) 0 t ∧
        fadeOutWrite (1 / 2) 0 t ≤ 1) ∧
      (∀ t ∈ ([0, 600] : List ℚ), 0 ≤ fadeInWrite 0 t ∧ fadeInWrite 0 t ≤ 1))) :=
  ⟨⟨by norm_num, by norm_num, by norm_num, by norm_num⟩,
    opacity_writes_bounded (1 / 2) 0 0 [0, 300, 900] [0, 600]
      (by norm_num) (by norm_num) (by norm_num) (by norm_num)⟩

/-- randRange(a, b) = a + random*(b-a), with the Math.random() draw r
threaded explicitly. -/
def randRange (r a b : ℚ) : ℚ := a + r * (b - a)

/-- The source's MIN_ANGULAR_SEPARATION_DEG constant. -/
def MIN_ANGULAR_SEPARATION_DEG : ℚ := 28

/-- Truncation of a rational toward zero, the rounding JavaScript's
remainder operator uses. -/
def truncQ (q : ℚ) : ℤ := if 0 ≤ q then ⌊q⌋ else ⌈q⌉

/-- The JavaScript % operator on rationals (remainder with the sign of
the dividend); for the positive dividends chooseSeparatedYaw produces it
agrees with the mathematical remainder. -/
def jsMod (a b : ℚ) : ℚ := a - b * (truncQ (a / b) : ℚ)

/-- The wrapped shortest angular difference of chooseSeparatedYaw:
abs(((yawDeg - used + 180 + 360) % 360) - 180). -/
def wrapDiff (yawDeg used : ℚ) : ℚ := |jsMod (yawDeg - used + 180 + 360) 360 - 180|

/-- The acceptance test of one candidate: ok stays true exactly when no
used yaw is closer than MIN_ANGULAR_SEPARATION_DEG. -/
def sepOk (used : List ℚ) (yawDeg : ℚ) : Bool :=
  used.all fun u => decide (MIN_ANGULAR_SEPARATION_DEG ≤ wrapDiff yawDeg u)

/-- The source's maxAttempts constant of chooseSeparatedYaw. -/
def maxPlacementAttempts : ℕ := 60

/-- The attempt loop of chooseSeparatedYaw: while fuel remains, draw a
candidate yaw in [0, 360), accept it if it is separated from every used
yaw; when the fuel is exhausted draw one more unconstrained candidate
and accept it.  Returns the accepted yaw in degrees (the source converts
it to radians on return), the updated usedYaws, and the number of
randRange draws consumed; attempt indexes the oracle. -/
def chooseLoop (rand : ℕ → ℚ) (used : List ℚ) : ℕ → ℕ → ℚ × List ℚ × ℕ
  | 0, attempt =>
    let fallback := randRange (rand attempt) 0 360
    (fallback, used ++ [fallback], attempt + 1)
  | fuel+1, attempt =>
    let yawDeg := randRange (rand attempt) 0 360
    if sepOk used yawDeg then (yawDeg, used ++ [yawDeg], attempt + 1)
    else chooseLoop rand used fuel (attempt + 1)

/-- chooseSeparatedYaw: run the attempt loop with the full budget. -/
def chooseSeparatedYaw (rand : ℕ → ℚ) (used : List ℚ) : ℚ × List ℚ × ℕ :=
  chooseLoop rand used maxPlacementAttempts 0

theorem chooseLoop_spec (rand : ℕ → ℚ) (used : List ℚ) :
    ∀ (fuel attempt : ℕ),
      (chooseLoop rand used fuel attempt).2.2 ≤ attempt + fuel + 1 ∧
      attempt < (chooseLoop rand used fuel attempt).2.2 ∧
      (chooseLoop rand used fuel attempt).2.1 =
        used ++ [(chooseLoop rand used fuel attempt).1] ∧
      (chooseLoop rand used fuel attempt).1 =
        randRange (rand ((chooseLoop rand used fuel attempt).2.2 - 1)) 0 360 := by
  intro fuel
  induction fuel with
  | zero =>
    intro attempt
    unfold chooseLoop
    dsimp only
    refine ⟨by omega, by omega, rfl, by simp⟩
  | succ fuel ih =>
    intro attempt
    unfold chooseLoop
    dsimp only
    split
    · exact ⟨by show attempt + 1 ≤ attempt + (fuel + 1) + 1; omega,
        by show attempt < attempt + 1; omega, rfl, by simp⟩
    · rcases ih (attempt + 1) with ⟨h1, h2, h3, h4⟩
      exact ⟨by omega, by omega, h3, h4⟩

/-- C6 amended — placement fallback policy and termination: every call
of chooseSeparatedYaw returns after at most maxPlacementAttempts + 1
candidate draws (the 60 budgeted attempts plus, when none satisfies the
separation constraint, one extra unconstrained draw) — it never blocks;
the accepted yaw is always the candidate produced by the final draw and
is recorded in usedYaws. -/
theorem chooseSeparatedYaw_terminates (rand : ℕ → ℚ) (used : List ℚ) :
    (chooseSeparatedYaw rand used).2.2 ≤ maxPlacementAttempts + 1 ∧
    0 < (chooseSeparatedYaw rand used).2.2 ∧
    (chooseSeparatedYaw rand used).2.1 = used ++ [(chooseSeparatedYaw rand used).1] ∧
    (chooseSeparatedYaw rand used).1 =
      randRange (rand ((chooseSeparatedYaw rand used).2.2 - 1)) 0 360 := by
  rcases chooseLoop_spec rand used maxPlacementAttempts 0 with ⟨h1, h2, h3, h4⟩
  exact ⟨by simpa using h1, h2, h3, h4⟩

theorem wrapDiff_zero_zero : wrapDiff 0 0 = 0 := by
  unfold wrapDiff jsMod truncQ
  have harg : (0 : ℚ) - 0 + 180 + 360 = 540 := by norm_num
  have hdiv : (540 : ℚ) / 360 = 3 / 2 := by norm_num
  have hfloor : ⌊(3 / 2 : ℚ)⌋ = 1 :=
    Int.floor_eq_iff.mpr ⟨by norm_num, by norm_num⟩
  rw [harg, hdiv, if_pos (by norm_num : (0 : ℚ) ≤ 3 / 2), hfloor]
  have : (540 : ℚ) - 360 * ((1 : ℤ) : ℚ) - 180 = 0 := by push_cast; ring
  rw [this, abs_zero]

theorem sepOk_zero_reject : sepOk [0] (randRange 0 0 360) = false := by
  have hr : randRange 0 0 360 = 0 := by norm_num [randRange]
  rw [hr]
  simp only [sepOk, List.all_cons, List.all_nil, Bool.and_true,
    decide_eq_false_iff_not, not_le, wrapDiff_zero_zero]
  norm_num [MIN_ANGULAR_SEPARATION_DEG]

theorem chooseLoop_all_fail (rand : ℕ → ℚ) (used : List ℚ) :
    ∀ (fuel attempt : ℕ),
      (∀ k, attempt ≤ k → k < attempt + fuel →
        sepOk used (randRange (rand k) 0 360) = false) →
      chooseLoop rand used fuel attempt =
        (randRange (rand (attempt + fuel)) 0 360,
         used ++ [randRange (rand (attempt + fuel)) 0 360], attempt + fuel + 1) := by
  intro fuel
  induction fuel with
  | zero =>
    intro attempt h
    unfold chooseLoop
    rfl
  | succ fuel ih =>
    intro attempt h
    unfold chooseLoop
    dsimp only
    rw [h attempt le_rfl (by omega)]
    simp only [Bool.false_eq_true, if_false]
    rw [ih (attempt + 1) (fun k hk1 hk2 => h k (by omega) (by omega))]
    have heq : attempt + 1 + fuel = attempt + (fuel + 1) := by omega
    rw [heq]

/-- C6 counterexample — with usedYaws = [0] and an oracle whose first 60
draws are all 0 (every in-budget candidate coincides with the used yaw,
violating the 28° separation), chooseSeparatedYaw consumes 61 candidate
draws, exceeding the attempt budget of 60, and returns the fresh 61st
draw (90°), not the last in-budget candidate (0°). -/
theorem chooseSeparatedYaw_budget_cex :
    (chooseSeparatedYaw (fun n => if n < 60 then 0 else 1/4) [0]).2.2 = 61 ∧
    ¬((chooseSeparatedYaw (fun n => if n < 60 then 0 else 1/4) [0]).2.2 ≤
        maxPlacementAttempts) ∧
    (chooseSeparatedYaw (fun n => if n < 60 then 0 else 1/4) [0]).1 = 90 ∧
    (chooseSeparatedYaw (fun n => if n < 60 then 0 else 1/4) [0]).1 ≠ 0 := by
  have hall : ∀ k, 0 ≤ k → k < 0 + 60 →
      sepOk [0] (randRange ((fun n => if n < 60 then (0 : ℚ) else 1/4) k) 0 360) = false := by
    intro k _ hk
    have hlt : k < 60 := by omega
    simp only [hlt, if_pos]
    exact sepOk_zero_reject
  have hrun := chooseLoop_all_fail (fun n => if n < 60 then (0 : ℚ) else 1/4) [0] 60 0 hall
  have h60 : ¬(60 < 60) := by omega
  have hval : randRange ((fun n => if n < 60 then (0 : ℚ) else 1/4) (0 + 60)) 0 360 = 90 := by
    simp only [Nat.zero_add, h60, if_neg, if_false]
    norm_num [randRange]
  unfold chooseSeparatedYaw maxPlacementAttempts
  rw [show (60 : ℕ) = 60 from rfl] at *
  rw [hrun]
  refine ⟨rfl, by show ¬(0 + 60 + 1 ≤ 60); omega, ?_, ?_⟩
  · exact hval
  · rw [hval]
    norm_num

/-- The host's trigonometry, abstracted as pure functions: Math.sin,
Math.cos and Math.PI are deterministic, so any fixed implementation
makes the geometry builder a function of its five numeric arguments. -/
structure MathImpl where
  sinQ : ℚ → ℚ
  cosQ : ℚ → ℚ
  piQ : ℚ

/-- The vertex grid of THREE.PlaneGeometry(width, height, segW, segH):
(segW+1)·(segH+1) positions, x spanning [-width/2, width/2] left to
right and y spanning [height/2, -height/2] top to bottom, z = 0. -/
def planeGridPositions (width height : ℚ) (segW segH : ℕ) : List (ℚ × ℚ × ℚ) :=
  (List.range (segH + 1)).flatMap fun iy =>
    (List.range (segW + 1)).map fun ix =>
      (width * (ix : ℚ) / (segW : ℚ) - width / 2,
       height / 2 - height * (iy : ℚ) / (segH : ℚ), 0)

/-- The init handler of the curved-panel component: clamp the segment
counts (at least 4 by 1) and the curvature (to [0, 1]), derive the arc
angle curvature·π/3 and the bend radius width/arc, and map every vertex
of the flat plane grid: for positive arc, (x, y, z) becomes
(sin(angle)·radius, y, radius - cos(angle)·radius) with
angle = ((x + width/2)/width - 0.5)·arc; for arc = 0 the panel stays
flat with z = 0. -/
def curvedPanelInit (M : MathImpl) (width height curvature : ℚ)
    (segmentsW segmentsH : ℕ) : List (ℚ × ℚ × ℚ) :=
  let segW := max 4 segmentsW
  let segH := max 1 segmentsH
  let bend := max 0 (min 1 curvature)
  let arc := bend * M.piQ / 3
  let radius := if 0 < arc then width / arc else 1000
  (planeGridPositions width height segW segH).map fun v =>
    if 0 < arc then
      let t := (v.1 + width / 2) / width
      let angle := (t - 1/2) * arc
      (M.sinQ angle * radius, v.2.1, radius - M.cosQ angle * radius)
    else
      (v.1, v.2.1, 0)

/-- C8 — geometry determinism/idempotence: two runs of the curved-panel
mesh construction with identical width, height, curvature and segment
counts (under the same deterministic math library) produce identical
vertex position lists; the bend mapping uses no randomness and depends
only on its inputs. -/
theorem curvedPanelInit_deterministic (M : MathImpl) (w1 h1 c1 w2 h2 c2 : ℚ)
    (sw1 sh1 sw2 sh2 : ℕ) (hw : w1 = w2) (hh : h1 = h2) (hc : c1 = c2)
    (hsw : sw1 = sw2) (hsh : sh1 = sh2) :
    curvedPanelInit M w1 h1 c1 sw1 sh1 = curvedPanelInit M w2 h2 c2 sw2 sh2 := by
  subst hw hh hc hsw hsh
  rfl

theorem curvedPanelInit_deterministic_witness :
    ((6 : ℚ) = 6 ∧ (4 : ℚ) = 4 ∧ (0 : ℚ) = 0 ∧ 4 = 4 ∧ 1 = 1) ∧
    curvedPanelInit ⟨id, id, 3⟩ 6 4 0 4 1 = curvedPanelInit ⟨id, id, 3⟩ 6 4 0 4 1 :=
  ⟨⟨rfl, rfl, rfl, rfl, rfl⟩,
    curvedPanelInit_deterministic ⟨id, id, 3⟩ 6 4 0 6 4 0 4 1 4 1 rfl rfl rfl rfl rfl⟩

/-- The cyclic index map underlying buildPanels: position k of the
initial build shows shuffled[k % shuffled.length]. -/
def cyclicFill (shuffled : List Meta) (n : ℕ) : List Meta :=
  (List.range n).map fun k => shuffled.getD (k % shuffled.length) default

theorem cyclicFill_length (shuffled : List Meta) (n : ℕ) :
    (cyclicFill shuffled n).length = n := by
  simp [cyclicFill]

theorem fillLoop_cyclicFill (shuffled : List Meta) (hsh : shuffled ≠ []) :
    ∀ (fuel n : ℕ), VISIBLE_PANELS ≤ n + fuel → n ≤ VISIBLE_PANELS →
      fillLoop shuffled fuel (cyclicFill shuffled n) = cyclicFill shuffled VISIBLE_PANELS := by
  have hM : 0 < shuffled.length := List.length_pos.mpr hsh
  intro fuel
  induction fuel with
  | zero =>
    intro n h1 h2
    have hn : n = VISIBLE_PANELS := by omega
    subst hn
    rfl
  | succ fuel ih =>
    intro n h1 h2
    unfold fillLoop
    rw [cyclicFill_length]
    split
    · rename_i hlt
      have hmod : n % shuffled.length < shuffled.length := Nat.mod_lt n hM
      rw [List.get?_eq_get hmod]
      dsimp only
      have happ : cyclicFill shuffled n ++ [shuffled.get ⟨n % shuffled.length, hmod⟩] =
          cyclicFill shuffled (n + 1) := by
        unfold cyclicFill
        rw [List.range_succ, List.map_append, List.map_singleton]
        congr 1
        rw [List.getD_eq_getElem shuffled default hmod]
        simp [List.get_eq_getElem]
      rw [happ]
      exact ih (n + 1) (by omega) (by omega)
    · rename_i hge
      have hn : n = VISIBLE_PANELS := by omega
      subst hn
      rfl

theorem take_eq_cyclicFill (shuffled : List Meta) :
    shuffled.take VISIBLE_PANELS =
      cyclicFill shuffled (min VISIBLE_PANELS shuffled.length) := by
  apply List.ext_getElem?
  intro i
  by_cases hi : i < min VISIBLE_PANELS shuffled.length
  · have hi8 : i < VISIBLE_PANELS := lt_of_lt_of_le hi (min_le_left _ _)
    have hiM : i < shuffled.length := lt_of_lt_of_le hi (min_le_right _ _)
    have hic : i < (cyclicFill shuffled (min VISIBLE_PANELS shuffled.length)).length := by
      rw [cyclicFill_length]; exact hi
    rw [List.getElem?_take_of_lt hi8, List.getElem?_eq_getElem hiM,
      List.getElem?_eq_getElem hic]
    unfold cyclicFill
    simp only [List.getElem_map, List.getElem_range]
    rw [Nat.mod_eq_of_lt hiM, List.getD_eq_getElem shuffled default hiM]
  · have h1 : (shuffled.take VISIBLE_PANELS).length ≤ i := by
      simp only [List.length_take]
      omega
    have h2 : (cyclicFill shuffled (min VISIBLE_PANELS shuffled.length)).length ≤ i := by
      rw [cyclicFill_length]
      omega
    rw [List.getElem?_eq_none h1, List.getElem?_eq_none h2]

/-- For a nonempty catalog, the initial build shows exactly the cyclic
fill of the shuffled catalog on the VISIBLE_PANELS panels. -/
theorem buildPanels_panels (bo : BuildOracle) (metaList : List Meta)
    (hne : metaList ≠ []) :
    (buildPanels bo metaList).panels =
      (cyclicFill (shuffleArray bo.catalogShuffle metaList) VISIBLE_PANELS).map Meta.id := by
  have hemp : metaList.isEmpty = false := by
    rcases metaList with _ | _
    · exact absurd rfl hne
    · rfl
  unfold buildPanels
  rw [hemp]
  simp only [Bool.false_eq_true, if_false]
  have hshne : shuffleArray bo.catalogShuffle metaList ≠ [] := by
    intro hcon
    exact hne (List.eq_nil_of_length_eq_zero
      (by rw [← shuffleArray_length bo.catalogShuffle metaList, hcon]; rfl))
  rw [take_eq_cyclicFill]
  rw [fillLoop_cyclicFill _ hshne VISIBLE_PANELS (min VISIBLE_PANELS _) (by omega)
    (min_le_left _ _)]

theorem buildPanels_displayed (bo : BuildOracle) (metaList : List Meta)
    (hne : metaList ≠ []) :
    (buildPanels bo metaList).displayedSet =
      idsOf (cyclicFill (shuffleArray bo.catalogShuffle metaList) VISIBLE_PANELS) := by
  have hemp : metaList.isEmpty = false := by
    rcases metaList with _ | _
    · exact absurd rfl hne
    · rfl
  unfold buildPanels
  rw [hemp]
  simp only [Bool.false_eq_true, if_false]
  have hshne : shuffleArray bo.catalogShuffle metaList ≠ [] := by
    intro hcon
    exact hne (List.eq_nil_of_length_eq_zero
      (by rw [← shuffleArray_length bo.catalogShuffle metaList, hcon]; rfl))
  rw [take_eq_cyclicFill]
  rw [fillLoop_cyclicFill _ hshne VISIBLE_PANELS (min VISIBLE_PANELS _) (by omega)
    (min_le_left _ _)]
  rw [foldl_insert_eq, Finset.empty_union]

theorem getD_id_inj {sh : List Meta} (hshnd : (sh.map Meta.id).Nodup)
    {i j : ℕ} (hi : i < sh.length) (hj : j < sh.length)
    (h : (sh.getD i default).id = (sh.getD j default).id) : i = j := by
  rw [List.getD_eq_getElem sh default hi, List.getD_eq_getElem sh default hj] at h
  have hieq : ((sh.map Meta.id).get ⟨i, by simpa using hi⟩) =
      ((sh.map Meta.id).get ⟨j, by simpa using hj⟩) := by
    simp only [List.get_eq_getElem, List.getElem_map]
    exact h
  have hfe := hshnd.get_inj_iff.mp hieq
  exact congrArg Fin.val hfe

theorem buildPanels_panels_length (bo : BuildOracle) (metaList : List Meta)
    (hne : metaList ≠ []) :
    (buildPanels bo metaList).panels.length = VISIBLE_PANELS := by
  rw [buildPanels_panels bo metaList hne]
  simp [cyclicFill_length]

theorem shuffled_ids_nodup (bo : BuildOracle) (metaList : List Meta)
    (hnd : (metaList.map Meta.id).Nodup) :
    ((shuffleArray bo.catalogShuffle metaList).map Meta.id).Nodup :=
  ((shuffleArray_perm bo.catalogShuffle metaList).map Meta.id).nodup_iff.mpr hnd

theorem buildPanels_panels_nodup (bo : BuildOracle) (metaList : List Meta)
    (hnd : (metaList.map Meta.id).Nodup) (hlen : VISIBLE_PANELS ≤ metaList.length) :
    (buildPanels bo metaList).panels.Nodup := by
  have hne : metaList ≠ [] := by
    intro hcon
    rw [hcon] at hlen
    simp [VISIBLE_PANELS] at hlen
  rw [buildPanels_panels bo metaList hne]
  have hmin : min VISIBLE_PANELS (shuffleArray bo.catalogShuffle metaList).length =
      VISIBLE_PANELS := by
    rw [shuffleArray_length]
    omega
  have hcf : cyclicFill (shuffleArray bo.catalogShuffle metaList) VISIBLE_PANELS =
      (shuffleArray bo.catalogShuffle metaList).take VISIBLE_PANELS := by
    rw [take_eq_cyclicFill, hmin]
  rw [hcf, List.map_take]
  exact (shuffled_ids_nodup bo metaList hnd).sublist (List.take_sublist _ _)

theorem buildPanels_panels_displayed (bo : BuildOracle) (metaList : List Meta)
    (hne : metaList ≠ []) :
    ∀ i ∈ (buildPanels bo metaList).panels, i ∈ (buildPanels bo metaList).displayedSet := by
  intro i hi
  rw [buildPanels_panels bo metaList hne] at hi
  rw [buildPanels_displayed bo metaList hne]
  rcases List.mem_map.mp hi with ⟨m, hm, rfl⟩
  exact mem_idsOf.mpr ⟨m, hm, rfl⟩

/-- C4 — uniqueness at start: for a catalog of at least VISIBLE_PANELS
assets with pairwise distinct ids, the initial build fills exactly
VISIBLE_PANELS panels with pairwise distinct asset ids, and every shown
id is marked displayed. -/
theorem initial_build_unique (metaList : List Meta) (bo : BuildOracle)
    (hnd : (metaList.map Meta.id).Nodup) (hlen : VISIBLE_PANELS ≤ metaList.length) :
    (buildPanels bo metaList).panels.length = VISIBLE_PANELS ∧
    (buildPanels bo metaList).panels.Nodup ∧
    ∀ i ∈ (buildPanels bo metaList).panels, i ∈ (buildPanels bo metaList).displayedSet := by
  have hne : metaList ≠ [] := by
    intro hcon
    rw [hcon] at hlen
    simp [VISIBLE_PANELS] at hlen
  exact ⟨buildPanels_panels_length bo metaList hne,
    buildPanels_panels_nodup bo metaList hnd hlen,
    buildPanels_panels_displayed bo metaList hne⟩

theorem initial_build_unique_witness :
    ((((List.range VISIBLE_PANELS).map fun i => (⟨i, 1, 1⟩ : Meta)).map Meta.id).Nodup ∧
      VISIBLE_PANELS ≤ ((List.range VISIBLE_PANELS).map fun i => (⟨i, 1, 1⟩ : Meta)).length) ∧
    ((buildPanels ⟨id, id⟩ ((List.range VISIBLE_PANELS).map fun i =>
        (⟨i, 1, 1⟩ : Meta))).panels.length = VISIBLE_PANELS ∧
      (buildPanels ⟨id, id⟩ ((List.range VISIBLE_PANELS).map fun i =>
        (⟨i, 1, 1⟩ : Meta))).panels.Nodup ∧
      ∀ i ∈ (buildPanels ⟨id, id⟩ ((List.range VISIBLE_PANELS).map fun i =>
          (⟨i, 1, 1⟩ : Meta))).panels,
        i ∈ (buildPanels ⟨id, id⟩ ((List.range VISIBLE_PANELS).map fun i =>
          (⟨i, 1, 1⟩ : Meta))).displayedSet) :=
  ⟨⟨by decide, by decide⟩,
    initial_build_unique ((List.range VISIBLE_PANELS).map fun i => (⟨i, 1, 1⟩ : Meta))
      ⟨id, id⟩ (by decide) (by decide)⟩

theorem count_mod_range_bounds :
    ∀ M ∈ Finset.Ico 1 VISIBLE_PANELS, ∀ j ∈ Finset.range M,
      0 < (((List.range VISIBLE_PANELS).map (· % M)).count j) ∧
      ((((List.range VISIBLE_PANELS).map (· % M)).count j) = VISIBLE_PANELS / M ∨
       (((List.range VISIBLE_PANELS).map (· % M)).count j) =
         (VISIBLE_PANELS + M - 1) / M) := by
  decide

/-- C5 — small-catalog fallback fairness: for a nonempty catalog of
fewer than VISIBLE_PANELS distinct-id assets, the initial build still
fills all VISIBLE_PANELS panels by cycling through the shuffled catalog,
so every catalog asset appears at least once, and each appears either
floor(V/M) or ceil(V/M) times. -/
theorem small_catalog_cyclic_fill (metaList : List Meta) (bo : BuildOracle)
    (hnd : (metaList.map Meta.id).Nodup) (hne : metaList ≠ [])
    (hM : metaList.length < VISIBLE_PANELS) :
    (buildPanels bo metaList).panels.length = VISIBLE_PANELS ∧
    ∀ m ∈ metaList,
      0 < ((buildPanels bo metaList).panels.count m.id) ∧
      (((buildPanels bo metaList).panels.count m.id) = VISIBLE_PANELS / metaList.length ∨
       ((buildPanels bo metaList).panels.count m.id) =
         (VISIBLE_PANELS + metaList.length - 1) / metaList.length) := by
  refine ⟨buildPanels_panels_length bo metaList hne, ?_⟩
  intro m hm
  have hMpos : 0 < metaList.length := List.length_pos.mpr hne
  have hshlen : (shuffleArray bo.catalogShuffle metaList).length = metaList.length :=
    shuffleArray_length bo.catalogShuffle metaList
  have hmsh : m ∈ shuffleArray bo.catalogShuffle metaList :=
    (shuffleArray_perm bo.catalogShuffle metaList).mem_iff.mpr hm
  rcases List.mem_iff_get.mp hmsh with ⟨j₀, hj₀⟩
  have hshnd := shuffled_ids_nodup bo metaList hnd
  have hj₀len : (j₀ : ℕ) < (shuffleArray bo.catalogShuffle metaList).length := j₀.isLt
  have hget_j₀ : (shuffleArray bo.catalogShuffle metaList).getD (j₀ : ℕ) default = m := by
    rw [List.getD_eq_getElem _ default hj₀len]
    simpa [List.get_eq_getElem] using hj₀
  have hcount : (buildPanels bo metaList).panels.count m.id =
      ((List.range VISIBLE_PANELS).map
        (· % (shuffleArray bo.catalogShuffle metaList).length)).count (j₀ : ℕ) := by
    rw [buildPanels_panels bo metaList hne, List.count_eq_countP, List.countP_map]
    unfold cyclicFill
    rw [List.countP_map]
    rw [List.count_eq_countP, List.countP_map]
    apply List.countP_congr
    intro k hk
    have hkmod : k % (shuffleArray bo.catalogShuffle metaList).length <
        (shuffleArray bo.catalogShuffle metaList).length := Nat.mod_lt k (by omega)
    simp only [Function.comp]
    constructor
    · intro hbeq
      have hid : ((shuffleArray bo.catalogShuffle metaList).getD
          (k % (shuffleArray bo.catalogShuffle metaList).length) default).id = m.id := by
        simpa using hbeq
      have hid2 : ((shuffleArray bo.catalogShuffle metaList).getD
          (k % (shuffleArray bo.catalogShuffle metaList).length) default).id =
          ((shuffleArray bo.catalogShuffle metaList).getD (j₀ : ℕ) default).id := by
        rw [hget_j₀, hid]
      have := getD_id_inj hshnd hkmod hj₀len hid2
      simpa using this
    · intro hbeq
      have hkj : k % (shuffleArray bo.catalogShuffle metaList).length = (j₀ : ℕ) := by
        simpa using hbeq
      have hgd : (shuffleArray bo.catalogShuffle metaList).getD
          (k % (shuffleArray bo.catalogShuffle metaList).length) default = m := by
        rw [hkj, hget_j₀]
      have hid : ((shuffleArray bo.catalogShuffle metaList).getD
          (k % (shuffleArray bo.catalogShuffle metaList).length) default).id = m.id := by
        rw [hgd]
      simpa using hid
  obtain ⟨jv, hjv_eq⟩ : ∃ jv : ℕ, (j₀ : ℕ) = jv := ⟨_, rfl⟩
  rw [hjv_eq] at hcount
  have hjvlt : jv < metaList.length := by
    rw [← hjv_eq]
    have := j₀.isLt
    omega
  rw [hcount, hshlen]
  exact count_mod_range_bounds metaList.length
    (Finset.mem_Ico.mpr ⟨hMpos, hM⟩) jv (Finset.mem_range.mpr hjvlt)

theorem small_catalog_cyclic_fill_witness :
    ((([⟨0, 1, 1⟩, ⟨1, 1, 1⟩, ⟨2, 1, 1⟩] : List Meta).map Meta.id).Nodup ∧
      ([⟨0, 1, 1⟩, ⟨1, 1, 1⟩, ⟨2, 1, 1⟩] : List Meta) ≠ [] ∧
      ([⟨0, 1, 1⟩, ⟨1, 1, 1⟩, ⟨2, 1, 1⟩] : List Meta).length < VISIBLE_PANELS) ∧
    ((buildPanels ⟨id, id⟩ [⟨0, 1, 1⟩, ⟨1, 1, 1⟩, ⟨2, 1, 1⟩]).panels.length =
        VISIBLE_PANELS ∧
      ∀ m ∈ ([⟨0, 1, 1⟩, ⟨1, 1, 1⟩, ⟨2, 1, 1⟩] : List Meta),
        0 < ((buildPanels ⟨id, id⟩ [⟨0, 1, 1⟩, ⟨1, 1, 1⟩, ⟨2, 1, 1⟩]).panels.count m.id) ∧
        (((buildPanels ⟨id, id⟩ [⟨0, 1, 1⟩, ⟨1, 1, 1⟩, ⟨2, 1, 1⟩]).panels.count m.id) =
            VISIBLE_PANELS / ([⟨0, 1, 1⟩, ⟨1, 1, 1⟩, ⟨2, 1, 1⟩] : List Meta).length ∨
          ((buildPanels ⟨id, id⟩ [⟨0, 1, 1⟩, ⟨1, 1, 1⟩, ⟨2, 1, 1⟩]).panels.count m.id) =
            (VISIBLE_PANELS + ([⟨0, 1, 1⟩, ⟨1, 1, 1⟩, ⟨2, 1, 1⟩] : List Meta).length - 1) /
              ([⟨0, 1, 1⟩, ⟨1, 1, 1⟩, ⟨2, 1, 1⟩] : List Meta).length)) :=
  ⟨⟨by decide, by decide, by decide⟩,
    small_catalog_cyclic_fill [⟨0, 1, 1⟩, ⟨1, 1, 1⟩, ⟨2, 1, 1⟩] ⟨id, id⟩
      (by decide) (by decide) (by decide)⟩

theorem nodup_set {l : List α} (hnd : l.Nodup) {a : α} (ha : a ∉ l) :
    ∀ {i : ℕ}, (l.set i a).Nodup := by
  induction l with
  | nil => intro i; simp
  | cons b t ih =>
    rcases List.nodup_cons.mp hnd with ⟨hbt, hndt⟩
    intro i
    cases i with
    | zero =>
      rw [List.set_cons_zero]
      exact List.nodup_cons.mpr
        ⟨fun hc => ha (List.mem_cons_of_mem b hc), hndt⟩
    | succ i =>
      rw [List.set_cons_succ]
      refine List.nodup_cons.mpr
        ⟨?_, ih hndt (fun hc => ha (List.mem_cons_of_mem b hc))⟩
      intro hb
      rcases List.mem_or_eq_of_mem_set hb with hb | hba
      · exact hbt hb
      · subst hba
        exact ha (List.mem_cons_self _ _)

theorem toFinset_set_eq {l : List ℕ} (hnd : l.Nodup) :
    ∀ {i : ℕ} (hi : i < l.length) (a : ℕ),
      (l.set i a).toFinset = insert a (l.toFinset.erase (l.get ⟨i, hi⟩)) := by
  induction l with
  | nil => intro i hi a; simp at hi
  | cons b t ih =>
    rcases List.nodup_cons.mp hnd with ⟨hbt, hndt⟩
    intro i hi a
    cases i with
    | zero =>
      rw [List.set_cons_zero, List.toFinset_cons, List.toFinset_cons]
      rw [show (b :: t).get ⟨0, hi⟩ = b from rfl]
      rw [Finset.erase_insert (by simpa using hbt)]
    | succ i =>
      have hit : i < t.length := by simpa using hi
      rw [List.set_cons_succ, List.toFinset_cons, List.toFinset_cons]
      rw [ih hndt hit a]
      rw [show (b :: t).get ⟨i + 1, hi⟩ = t.get ⟨i, hit⟩ from rfl]
      have hbne : b ≠ t.get ⟨i, hit⟩ := by
        intro hc
        exact hbt (hc ▸ t.get_mem i hit)
      rw [Finset.erase_insert_of_ne hbne, Finset.Insert.comm]

theorem releaseOld_found_perm {metaList pool1 : List Meta} {oldId nextId : ℕ}
    {o : StepOracle} {oldMeta : Meta}
    (hfind : metaList.find? (fun m => m.id == oldId) = some oldMeta)
    (hne : oldMeta.id ≠ nextId) :
    (releaseOld metaList pool1 oldId nextId o).Perm (pool1 ++ [oldMeta]) := by
  unfold releaseOld
  rw [hfind]
  dsimp only
  rw [if_pos hne]
  split
  · exact shuffleArray_perm _ _
  · exact List.Perm.refl _

/-- The inductive strengthening of the conservation invariant that the
replacement engine maintains for catalogs larger than the panel count:
the panels show pairwise distinct ids, displayedSet is exactly the set
of shown ids, the pool has no duplicate ids and is disjoint from the
displayed set, and there are always VISIBLE_PANELS panels. -/
def strongInv (metaList : List Meta) (s : PoolState) : Prop :=
  poolInv metaList s ∧
  s.panels.Nodup ∧
  s.panels.toFinset = s.displayedSet ∧
  (s.unusedSequencing.map Meta.id).Nodup ∧
  (∀ m ∈ s.unusedSequencing, m.id ∉ s.displayedSet) ∧
  s.panels.length = VISIBLE_PANELS

instance (metaList : List Meta) (s : PoolState) : Decidable (strongInv metaList s) := by
  unfold strongInv
  infer_instance

theorem buildPanels_pool (bo : BuildOracle) (metaList : List Meta)
    (hne : metaList ≠ []) :
    (buildPanels bo metaList).unusedSequencing =
      shuffleArray bo.poolShuffle (metaList.filter fun m =>
        !(decide (m.id ∈ idsOf (cyclicFill (shuffleArray bo.catalogShuffle metaList)
          VISIBLE_PANELS)))) := by
  have hemp : metaList.isEmpty = false := by
    rcases metaList with _ | _
    · exact absurd rfl hne
    · rfl
  have hshne : shuffleArray bo.catalogShuffle metaList ≠ [] := by
    intro hcon
    exact hne (List.eq_nil_of_length_eq_zero
      (by rw [← shuffleArray_length bo.catalogShuffle metaList, hcon]; rfl))
  unfold buildPanels
  rw [hemp]
  simp only [Bool.false_eq_true, if_false]
  rw [take_eq_cyclicFill]
  rw [fillLoop_cyclicFill _ hshne VISIBLE_PANELS (min VISIBLE_PANELS _) (by omega)
    (min_le_left _ _)]
  rw [foldl_insert_eq, Finset.empty_union]

theorem strongInv_buildPanels (bo : BuildOracle) (metaList : List Meta)
    (hnd : (metaList.map Meta.id).Nodup) (hlen : VISIBLE_PANELS ≤ metaList.length) :
    strongInv metaList (buildPanels bo metaList) := by
  have hne : metaList ≠ [] := by
    intro hcon
    rw [hcon] at hlen
    simp [VISIBLE_PANELS] at hlen
  refine ⟨poolInv_buildPanels bo metaList,
    buildPanels_panels_nodup bo metaList hnd hlen, ?_, ?_, ?_,
    buildPanels_panels_length bo metaList hne⟩
  · rw [buildPanels_panels bo metaList hne, buildPanels_displayed bo metaList hne]
    rfl
  · rw [buildPanels_pool bo metaList hne]
    apply ((shuffleArray_perm bo.poolShuffle _).map Meta.id).nodup_iff.mpr
    exact hnd.sublist ((List.filter_sublist _).map Meta.id)
  · intro m hm
    rw [buildPanels_pool bo metaList hne] at hm
    have hm' := (shuffleArray_perm bo.poolShuffle _).mem_iff.mp hm
    rcases List.mem_filter.mp hm' with ⟨_, hflt⟩
    simp only [Bool.not_eq_eq_eq_not, Bool.not_true, decide_eq_false_iff_not] at hflt
    rw [buildPanels_displayed bo metaList hne]
    exact hflt

theorem strongInv_replaceStep (metaList : List Meta) (s : PoolState) (o : StepOracle)
    (hN : VISIBLE_PANELS < metaList.length)
    (hnd : (metaList.map Meta.id).Nodup)
    (h : strongInv metaList s) :
    strongInv metaList (replaceStep metaList s o) ∧
    (∀ d, (replaceStepAux metaList s o).2 = some d → d ∉ s.displayedSet) := by
  obtain ⟨hinv, hpnd, htf, hqnd, hdisj, hlen⟩ := h
  have hpanne : s.panels ≠ [] := by
    intro hc
    rw [hc] at hlen
    simp [VISIBLE_PANELS] at hlen
  have hmlne : metaList ≠ [] := by
    intro hc
    rw [hc] at hN
    simp [VISIBLE_PANELS] at hN
  have hguard' : (s.panels.isEmpty || metaList.isEmpty) = false := by
    rcases hp : s.panels with _ | _
    · exact absurd hp hpanne
    · rcases hq : metaList with _ | _
      · exact absurd hq hmlne
      · rfl
  have hidx : o.panelChoice % s.panels.length < s.panels.length :=
    Nat.mod_lt _ (by rw [hlen]; decide)
  have hget : s.panels.get? (o.panelChoice % s.panels.length) =
      some (s.panels.get ⟨o.panelChoice % s.panels.length, hidx⟩) :=
    List.get?_eq_get hidx
  set oldId := s.panels.get ⟨o.panelChoice % s.panels.length, hidx⟩ with holdid_def
  have hpoolne : s.unusedSequencing ≠ [] := by
    intro hc
    have hdisp : s.displayedSet = idsOf metaList := by
      rw [poolInv, hc] at hinv
      simpa [idsOf] using hinv
    have hcard1 : s.displayedSet.card ≤ VISIBLE_PANELS := by
      rw [← htf]
      calc s.panels.toFinset.card ≤ s.panels.length := List.toFinset_card_le _
        _ = VISIBLE_PANELS := hlen
    have hcard2 : (idsOf metaList).card = metaList.length := by
      unfold idsOf
      rw [List.toFinset_card_of_nodup hnd, List.length_map]
    rw [hdisp, hcard2] at hcard1
    omega
  rcases hpool : s.unusedSequencing with _ | ⟨mNext, rest⟩
  · exact absurd hpool hpoolne
  have hpick : pickNextMeta metaList s.displayedSet s.unusedSequencing o =
      (some mNext, rest) := by
    rw [hpool]
    rfl
  have hmem_pool : mNext ∈ s.unusedSequencing := by
    rw [hpool]
    exact List.mem_cons_self _ _
  have hnext_nd : mNext.id ∉ s.displayedSet := hdisj mNext hmem_pool
  have hold_disp : oldId ∈ s.displayedSet := by
    rw [← htf]
    exact List.mem_toFinset.mpr (List.get_mem _ _ _)
  have hne : mNext.id ≠ oldId := fun hc => hnext_nd (hc ▸ hold_disp)
  have hold_cat : oldId ∈ idsOf metaList := by
    have : oldId ∈ idsOf s.unusedSequencing ∪ s.displayedSet :=
      Finset.mem_union_right _ hold_disp
    rw [hinv] at this
    exact this
  rcases hfind : metaList.find? (fun m => m.id == oldId) with _ | oldMeta
  · exact absurd hold_cat (find?_id_none hfind)
  obtain ⟨holdmem, holdid_eq⟩ := find?_id_some hfind
  have hnein : oldMeta.id ≠ mNext.id := by
    rw [holdid_eq]
    exact fun hc => hne hc.symm
  have hqnd' : (rest.map Meta.id).Nodup ∧ mNext.id ∉ rest.map Meta.id := by
    rw [hpool] at hqnd
    simp only [List.map_cons] at hqnd
    exact ⟨(List.nodup_cons.mp hqnd).2, (List.nodup_cons.mp hqnd).1⟩
  have hstep := replaceStepAux_of_pick hguard' hget hpick
  constructor
  · unfold replaceStep
    rw [hstep]
    refine ⟨?_, ?_, ?_, ?_, ?_, ?_⟩
    · have hp := poolInv_replaceStep metaList s o hinv
      unfold replaceStep at hp
      rw [hstep] at hp
      exact hp
    · apply nodup_set hpnd
      intro hc
      exact hnext_nd (htf ▸ List.mem_toFinset.mpr hc)
    · dsimp only
      rw [toFinset_set_eq hpnd hidx mNext.id, htf]
    · dsimp only
      have hperm :=
        (@releaseOld_found_perm metaList rest oldId mNext.id o oldMeta hfind hnein).map
          Meta.id
      apply hperm.nodup_iff.mpr
      rw [List.map_append]
      rw [List.nodup_append]
      refine ⟨hqnd'.1, by simp, ?_⟩
      intro x hx
      rcases List.mem_map.mp hx with ⟨mm, hmm, rfl⟩
      simp only [List.map_cons, List.map_nil, List.mem_singleton]
      intro hc
      have hmmdisp : mm.id ∈ s.displayedSet := by
        rw [hc, holdid_eq]
        exact hold_disp
      exact hdisj mm (by rw [hpool]; exact List.mem_cons_of_mem _ hmm) hmmdisp
    · dsimp only
      intro x hx
      have hx' : x ∈ rest ++ [oldMeta] :=
        (releaseOld_found_perm hfind hnein).mem_iff.mp hx
      rcases List.mem_append.mp hx' with hx' | hx'
      · have hxd : x.id ∉ s.displayedSet :=
          hdisj x (by rw [hpool]; exact List.mem_cons_of_mem _ hx')
        have hxne : x.id ≠ mNext.id := by
          intro hc
          exact hqnd'.2 (hc ▸ List.mem_map_of_mem Meta.id hx')
        simp only [Finset.mem_insert, Finset.mem_erase]
        rintro (hc | ⟨_, hc⟩)
        · exact hxne hc
        · exact hxd hc
      · rcases List.mem_singleton.mp hx' with rfl
        simp only [Finset.mem_insert, Finset.mem_erase, holdid_eq]
        rintro (hc | ⟨hc1, _⟩)
        · first
          | exact hnein hc
          | exact hne hc.symm
        · exact hc1 rfl
    · dsimp only
      rw [List.length_set]
      exact hlen
  · intro d hd
    rw [hstep] at hd
    have hd' : mNext.id = d := by
      simpa using hd
    rw [← hd']
    exact hnext_nd

/-- C1 amended — what the rotation engine actually guarantees for a
catalog strictly larger than the panel count: after initialize the
strengthened bookkeeping invariant holds and is preserved by every
replacement step, and every nextUnique draw (the id pickNextMeta
selects) is an asset that is not currently displayed — so no asset
occupies two panels and no asset is drawn again while it is still on a
panel.  Full N-draw exact coverage does not hold (see the
counterexample): an asset released from a re-selected panel can repeat
before undrawn assets appear. -/
theorem nextUnique_not_displayed (metaList : List Meta) (bo : BuildOracle)
    (s : PoolState) (o : StepOracle)
    (hnd : (metaList.map Meta.id).Nodup) (hN : VISIBLE_PANELS < metaList.length)
    (h : strongInv metaList s) :
    strongInv metaList (buildPanels bo metaList) ∧
    strongInv metaList (replaceStep metaList s o) ∧
    (∀ d, (replaceStepAux metaList s o).2 = some d → d ∉ s.displayedSet) :=
  ⟨strongInv_buildPanels bo metaList hnd (le_of_lt hN),
    (strongInv_replaceStep metaList s o hN hnd h).1,
    (strongInv_replaceStep metaList s o hN hnd h).2⟩

theorem nextUnique_not_displayed_witness :
    (((((List.range 9).map fun i => (⟨i, 1, 1⟩ : Meta)).map Meta.id).Nodup ∧
      VISIBLE_PANELS < ((List.range 9).map fun i => (⟨i, 1, 1⟩ : Meta)).length ∧
      strongInv ((List.range 9).map fun i => (⟨i, 1, 1⟩ : Meta))
        ⟨[0, 1, 2, 3, 4, 5, 6, 7], {0, 1, 2, 3, 4, 5, 6, 7}, [⟨8, 1, 1⟩]⟩) ∧
    (strongInv ((List.range 9).map fun i => (⟨i, 1, 1⟩ : Meta))
        (buildPanels ⟨id, id⟩ ((List.range 9).map fun i => (⟨i, 1, 1⟩ : Meta))) ∧
      strongInv ((List.range 9).map fun i => (⟨i, 1, 1⟩ : Meta))
        (replaceStep ((List.range 9).map fun i => (⟨i, 1, 1⟩ : Meta))
          ⟨[0, 1, 2, 3, 4, 5, 6, 7], {0, 1, 2, 3, 4, 5, 6, 7}, [⟨8, 1, 1⟩]⟩
          ⟨0, id, 0, false, id⟩) ∧
      (∀ d, (replaceStepAux ((List.range 9).map fun i => (⟨i, 1, 1⟩ : Meta))
          ⟨[0, 1, 2, 3, 4, 5, 6, 7], {0, 1, 2, 3, 4, 5, 6, 7}, [⟨8, 1, 1⟩]⟩
          ⟨0, id, 0, false, id⟩).2 = some d →
        d ∉ ({0, 1, 2, 3, 4, 5, 6, 7} : Finset ℕ)))) :=
  ⟨⟨by decide, by decide, by decide⟩,
    nextUnique_not_displayed ((List.range 9).map fun i => (⟨i, 1, 1⟩ : Meta))
      ⟨id, id⟩ ⟨[0, 1, 2, 3, 4, 5, 6, 7], {0, 1, 2, 3, 4, 5, 6, 7}, [⟨8, 1, 1⟩]⟩
      ⟨0, id, 0, false, id⟩ (by decide) (by decide) (by decide)⟩

/-- The nine-asset catalog of the C1 counterexample run. -/
def catalogNine : List Meta := (List.range 9).map fun i => ⟨i, 1, 1⟩

/-- A replacement tick whose random draws always choose panel 0 and
never trigger the optional pool re-shuffle. -/
def panelZeroTick : StepOracle := ⟨0, id, 0, false, id⟩

/-- C1 counterexample — fair coverage fails on the code: for the
nine-asset catalog (N = 9 ≥ V = 8), after initialize (with the identity
shuffles) a replacement schedule whose nine ticks all select panel 0
makes the next nine nextUnique draws come out as
[8, 0, 8, 0, 8, 0, 8, 0, 8]: asset 8 is drawn five times and assets
1 through 7 are never drawn, so the nine consecutive draws do not
return every catalog asset exactly once. -/
theorem fair_coverage_cex :
    VISIBLE_PANELS ≤ catalogNine.length ∧
    (runSteps catalogNine (buildPanels ⟨id, id⟩ catalogNine)
      (List.replicate catalogNine.length panelZeroTick)).2 =
        [8, 0, 8, 0, 8, 0, 8, 0, 8] ∧
    ¬(∀ a ∈ catalogNine.map Meta.id,
        (runSteps catalogNine (buildPanels ⟨id, id⟩ catalogNine)
          (List.replicate catalogNine.length panelZeroTick)).2.count a = 1) := by
  decide

end VRSlideshow
